import Mathlib

/-!
Verification of the HashTensor_Subnet validator core: registry store
(`src/interfaces/database.py`), sync tasks (`src/tasks.py`,
`src/main.py`) and rating engine (`src/rating.py`, `src/metrics.py`,
`src/validator.py`), shallowly embedded in Lean.

Python floats are modelled as exact rationals (`ℚ`), Python ints as `ℤ`;
`math.exp` and the float power operator `**` are modelled as opaque
function parameters, since no claim depends on their numeric values.
Python division, which raises `ZeroDivisionError` on a zero denominator,
is modelled as an `Option`-valued operation, and functions that may
raise return `Except`/`Option`.
-/

/-- Python `int(x)` on a float: truncation toward zero (the numerator
T-divided by the denominator). -/
def pytrunc (q : ℚ) : ℤ := q.num.tdiv q.den

/-- Python float division `a / b`: raises (`none`) when `b = 0`. -/
def pydiv (a b : ℚ) : Option ℚ := if b = 0 then none else some (a / b)

/-- Python `a ** b` on floats: raises only for `0 ** negative`; otherwise the
value is given by the opaque parameter `fpow` (its numeric values are
irrelevant to the claims proved here). -/
def pypow (fpow : ℚ → ℚ → ℚ) (a b : ℚ) : Option ℚ :=
  if a = 0 ∧ b < 0 then none else some (fpow a b)

/-- Python `round(q)` (no digits): round half to even. Away from exact ties
it agrees with rounding to the nearest integer. -/
def pyround0 (q : ℚ) : ℤ :=
  if 2 * (q - ⌊q⌋) = 1 then (if ⌊q⌋ % 2 = 0 then ⌊q⌋ else ⌊q⌋ + 1) else round q

/-- Python `round(q, nd)`: round to `nd` decimal digits. -/
def pyround (nd : ℕ) (q : ℚ) : ℚ := (pyround0 (q * 10 ^ nd) : ℚ) / 10 ^ nd

/-- Whether `needle` is a prefix of `hay` (on character lists). -/
def charsPre : List Char → List Char → Bool
  | [], _ => true
  | _ :: _, [] => false
  | a :: as, b :: bs => a == b && charsPre as bs

/-- Whether `needle` occurs as a contiguous sublist of `hay`. -/
def charsSub : List Char → List Char → Bool
  | n, [] => charsPre n []
  | n, c :: rest => charsPre n (c :: rest) || charsSub n rest

/-- Python `a in b` on strings: substring containment. -/
def pyIn (a b : String) : Bool := charsSub a.data b.data

/-- Python truthiness of an optional string column: `None` and `""` are
falsy. -/
def pyTruthyStr : Option String → Bool
  | none => false
  | some s => !(s == "")

/-- A Python value that is either a float or an int (the
`registration_time` argument of `add_mapping` is typed `float | int`). -/
inductive PyNum where
  | pfloat (q : ℚ)
  | pint (n : ℤ)
deriving DecidableEq

/-- The numeric value of a `PyNum` (Python compares ints and floats by
numeric value). -/
def PyNum.val : PyNum → ℚ
  | .pfloat q => q
  | .pint n => (n : ℚ)

/-- Row of the `hotkey_worker` table (`class HotkeyWorker` in
`src/interfaces/database.py`). -/
structure HotkeyWorker where
  worker : String
  hotkey : String
  registration_time : ℚ
  registration_time_int : ℤ
  signature : String
  unbind_signature : Option String
deriving DecidableEq

/-- Row of the `validator_sync_offset` table (`class ValidatorSyncOffset`). -/
structure ValidatorSyncOffset where
  hotkey : String
  last_registration_time : ℚ
  last_sync_time : ℚ
deriving DecidableEq

/-- The registry database state: the `hotkey_worker` table (insertion
ordered, `worker` is the primary key) and the `validator_sync_offset`
table (primary key `hotkey`). -/
structure RegistryDB where
  rows : List HotkeyWorker
  offsets : List ValidatorSyncOffset
deriving DecidableEq

/-- Number of rows the query
`filter_by(hotkey=hotkey, unbind_signature=None).count()` returns. -/
def activeCount (db : RegistryDB) (hotkey : String) : ℕ :=
  (db.rows.filter (fun r => r.hotkey == hotkey && r.unbind_signature == none)).length

/-- Model of `DatabaseService.add_mapping`: conflict check on the worker name,
quota check on the hotkey's active bindings, then derivation of the
float/int pair from the `float | int` argument and insertion. -/
def add_mapping (db : RegistryDB) (max_workers : ℕ) (hotkey worker signature : String)
    (registration_time : PyNum) : Except String RegistryDB :=
  if db.rows.any (fun r => r.worker == worker) then
    .error "Worker already registered"
  else if max_workers ≤ activeCount db hotkey then
    .error ("Maximum number of workers (" ++ toString max_workers ++ ") for this hotkey reached")
  else
    match registration_time with
    | .pfloat q =>
        .ok { db with rows := db.rows ++
          [⟨worker, hotkey, q, pytrunc (q * 1000000), signature, none⟩] }
    | .pint n =>
        .ok { db with rows := db.rows ++
          [⟨worker, hotkey, (n : ℚ) / 1000000, n, signature, none⟩] }

/-- Ordering used by `order_by(HotkeyWorker.registration_time_int)`. -/
def regLE (a b : HotkeyWorker) : Prop := a.registration_time_int ≤ b.registration_time_int

instance regLE.decRel : DecidableRel regLE := fun a b => by
  unfold regLE; infer_instance

instance regLE.total : IsTotal HotkeyWorker regLE :=
  ⟨fun a b => le_total a.registration_time_int b.registration_time_int⟩

instance regLE.trans : IsTrans HotkeyWorker regLE :=
  ⟨fun _ _ _ hab hbc => le_trans hab hbc⟩

/-- The dict returned per row by `get_hotkey_workers_by_time` (all row
fields except `unbind_signature`). -/
structure WorkerDict where
  worker : String
  hotkey : String
  registration_time : ℚ
  registration_time_int : ℤ
  signature : String
deriving DecidableEq

/-- Projection of a row to the returned dict. -/
def HotkeyWorker.toDict (r : HotkeyWorker) : WorkerDict :=
  ⟨r.worker, r.hotkey, r.registration_time, r.registration_time_int, r.signature⟩

/-- Model of `DatabaseService.get_hotkey_workers_by_time`: filter on
`registration_time_int > int(since_timestamp * 1_000_000)`, order by
`registration_time_int` ascending, offset-based pagination with
1-indexed page numbers. -/
def get_hotkey_workers_by_time (db : RegistryDB) (since_timestamp : ℚ)
    (page_size page_number : ℕ) : List WorkerDict :=
  let since_ts_int := pytrunc (since_timestamp * 1000000)
  let query := List.insertionSort regLE
    (db.rows.filter (fun r => since_ts_int < r.registration_time_int))
  ((query.drop ((page_number - 1) * page_size)).take page_size).map HotkeyWorker.toDict

/-- The row update of `mark_worker_unbound` on the row list: find the
first row matching `(hotkey, worker)`, fail if absent or already
unbound (Python truthiness), otherwise set its `unbind_signature`. -/
def unbindRows : List HotkeyWorker → String → String → String →
    Except String (List HotkeyWorker)
  | [], _, _, _ => .error "Worker not found for this hotkey"
  | r :: rest, hotkey, worker, usig =>
    if r.hotkey == hotkey && r.worker == worker then
      if pyTruthyStr r.unbind_signature then .error "Worker already unbound"
      else .ok ({ r with unbind_signature := some usig } :: rest)
    else
      (unbindRows rest hotkey worker usig).map (r :: ·)

/-- Model of `DatabaseService.mark_worker_unbound`. -/
def mark_worker_unbound (db : RegistryDB) (hotkey worker unbind_signature : String) :
    Except String RegistryDB :=
  (unbindRows db.rows hotkey worker unbind_signature).map
    (fun rows => { db with rows := rows })

/-- Model of `DatabaseService.get_validator_sync_offset`: the stored
`last_registration_time` for the peer, defaulting to `0.0`. -/
def get_validator_sync_offset (db : RegistryDB) (hotkey : String) : ℚ :=
  match db.offsets.find? (fun o => o.hotkey == hotkey) with
  | some o => o.last_registration_time
  | none => 0

/-- The offsets-table update of `update_validator_sync_offset`: update
the first row with the given hotkey, or append a fresh row. -/
def offsetsUpsert : List ValidatorSyncOffset → String → ℚ → ℚ →
    List ValidatorSyncOffset
  | [], hotkey, t, now => [⟨hotkey, t, now⟩]
  | o :: rest, hotkey, t, now =>
    if o.hotkey == hotkey then ⟨o.hotkey, t, now⟩ :: rest
    else o :: offsetsUpsert rest hotkey t now

/-- Model of `DatabaseService.update_validator_sync_offset` (`time.time()` passed
as `now`). -/
def update_validator_sync_offset (db : RegistryDB) (hotkey : String) (registration_time now : ℚ) :
    RegistryDB :=
  { db with offsets := offsetsUpsert db.offsets hotkey registration_time now }

/-- A record fetched from a peer's `/hotkey_workers` endpoint, as
JSON-decoded by the sync tasks (`registration_time` decodes to a Python
int or float). -/
structure SyncRecord where
  worker : String
  hotkey : String
  registration_time : PyNum
  signature : String
deriving DecidableEq

/-- The added/skipped/failed counters of a sync pass. -/
structure SyncCounts where
  added : ℕ
  skipped : ℕ
  failed : ℕ
deriving DecidableEq

/-- Loop state of `sync_hotkey_workers_task` in `src/tasks.py` while
processing one peer's records. -/
structure TasksSyncState where
  db : RegistryDB
  latest : ℚ
  counts : SyncCounts
deriving DecidableEq

/-- One iteration of the record loop of `sync_hotkey_workers_task` in
`src/tasks.py` (lines 134-174): track the maximum registration time
seen, skip records whose worker already exists, count records whose
signature fails as failed, otherwise call `add_mapping` (whose errors
are also counted as failed). Signature verification over the canonical
JSON is abstracted into the oracle `verify_ok`. -/
def tasks_process_record (max_workers : ℕ) (verify_ok : SyncRecord → Bool)
    (st : TasksSyncState) (r : SyncRecord) : TasksSyncState :=
  let latest := if st.latest < r.registration_time.val then r.registration_time.val else st.latest
  if st.db.rows.any (fun x => x.worker == r.worker) then
    { st with latest, counts := { st.counts with skipped := st.counts.skipped + 1 } }
  else if !(verify_ok r) then
    { st with latest, counts := { st.counts with failed := st.counts.failed + 1 } }
  else
    match add_mapping st.db max_workers r.hotkey r.worker r.signature r.registration_time with
    | .ok db' =>
        { db := db', latest, counts := { st.counts with added := st.counts.added + 1 } }
    | .error _ =>
        { st with latest, counts := { st.counts with failed := st.counts.failed + 1 } }

/-- The per-peer body of `sync_hotkey_workers_task` in `src/tasks.py`:
read the stored offset, process the fetched records (an empty fetch
short-circuits with `continue`), then advance the offset to the largest
registration time seen when it exceeds the stored offset. -/
def tasks_process_peer (max_workers : ℕ) (verify_ok : SyncRecord → Bool)
    (db : RegistryDB) (peer : String) (workers : List SyncRecord) (now : ℚ) :
    TasksSyncState :=
  let last := get_validator_sync_offset db peer
  if workers.isEmpty then ⟨db, last, ⟨0, 0, 0⟩⟩
  else
    let st := workers.foldl (tasks_process_record max_workers verify_ok) ⟨db, last, ⟨0, 0, 0⟩⟩
    if last < st.latest then
      { st with db := update_validator_sync_offset st.db peer st.latest now }
    else st

/-- Loop state of `sync_hotkey_workers_task` in `src/main.py` while
processing one peer's records (`max_registration_time_in_batch` and the
counters). -/
structure MainSyncState where
  db : RegistryDB
  maxb : ℚ
  counts : SyncCounts
deriving DecidableEq

/-- One iteration of the record loop of `sync_hotkey_workers_task` in
`src/main.py` (lines 257-292): records whose hotkey is not a substring
of their worker are counted as skipped; otherwise `add_mapping` is
attempted, a `ValueError` is counted as skipped, and on success the
batch maximum is advanced. (The generic-exception branch that counts a
failure is unreachable in this pure model, since `add_mapping` raises
only `ValueError`.) -/
def main_process_record (max_workers : ℕ) (st : MainSyncState) (r : SyncRecord) :
    MainSyncState :=
  if !(pyIn r.hotkey r.worker) then
    { st with counts := { st.counts with skipped := st.counts.skipped + 1 } }
  else
    match add_mapping st.db max_workers r.hotkey r.worker r.signature r.registration_time with
    | .ok db' =>
        { db := db',
          maxb := max st.maxb r.registration_time.val,
          counts := { st.counts with added := st.counts.added + 1 } }
    | .error _ =>
        { st with counts := { st.counts with skipped := st.counts.skipped + 1 } }

/-- The per-peer body of `sync_hotkey_workers_task` in `src/main.py`:
process the fetched records, then advance the offset when the batch
maximum (updated only on successful adds) exceeds the stored offset. -/
def main_process_peer (max_workers : ℕ) (db : RegistryDB) (peer : String)
    (workers : List SyncRecord) (now : ℚ) : MainSyncState :=
  let last := get_validator_sync_offset db peer
  let st := workers.foldl (main_process_record max_workers) ⟨db, last, ⟨0, 0, 0⟩⟩
  if last < st.maxb then
    { st with db := update_validator_sync_offset st.db peer st.maxb now }
  else st

/-- Model of `MinerMetrics` (`src/metrics.py`), with the class's field defaults. -/
structure MinerMetrics where
  uptime : ℚ := 0
  valid_shares : ℤ := 0
  invalid_shares : ℤ := 0
  total_difficulty : ℚ := 0
  difficulty : ℚ := 0
  hashrate : ℚ := 0
  worker_name : Option String := none
deriving DecidableEq

/-- Model of `MinerMetrics.default_instance`: all numeric fields at their
defaults, only `worker_name` set. -/
def MinerMetrics.default_instance (worker_name : Option String) : MinerMetrics :=
  { worker_name }

/-- The numeric configuration of `RatingCalculator` (`src/rating.py`). -/
structure RatingCalculator where
  uptime_alpha : ℚ
  window_seconds : ℚ
  ndigits : ℕ
  max_difficulty : ℚ
  invalid_shares_penalty_factor : ℚ

/-- Model of `RatingCalculator.penalty_exponential`; `math.exp` is the opaque
parameter `fexp`. -/
def penalty_exponential (fexp : ℚ → ℚ) (c : RatingCalculator) (difficulty : ℚ) :
    Option ℚ :=
  if c.max_difficulty < difficulty then
    (pydiv (-(difficulty - c.max_difficulty)) c.max_difficulty).map fexp
  else some 1

/-- One summand of `compute_effective_work`:
`m.valid_shares * min(m.difficulty, max_difficulty) * penalty(m.difficulty)`. -/
def effective_work_term (fexp : ℚ → ℚ) (c : RatingCalculator) (m : MinerMetrics) :
    Option ℚ :=
  (penalty_exponential fexp c m.difficulty).map
    (fun p => (m.valid_shares : ℚ) * min m.difficulty c.max_difficulty * p)

/-- Model of `RatingCalculator.compute_effective_work`. -/
def compute_effective_work (fexp : ℚ → ℚ) (c : RatingCalculator)
    (metrics : List MinerMetrics) : Option ℚ :=
  (metrics.mapM (effective_work_term fexp c)).map (fun l => l.sum)

/-- Model of `RatingCalculator.compute_fractional_uptime` (`time.time()` passed
as `now`). -/
def compute_fractional_uptime (c : RatingCalculator) (now start_timestamp : ℚ) :
    Option ℚ :=
  let window_start := now - c.window_seconds
  if now < start_timestamp then some 0
  else if start_timestamp < window_start then some 1
  else pydiv (now - start_timestamp) c.window_seconds

/-- Model of `RatingCalculator.compute_avg_uptime`: mean over the workers of
their clamped uptime fractions, `0.0` for no workers. -/
def compute_avg_uptime (c : RatingCalculator) (now : ℚ) (metrics : List MinerMetrics) :
    Option ℚ :=
  if metrics = [] then some 0
  else do
    let us ← metrics.mapM (fun m => compute_fractional_uptime c now m.uptime)
    let clamped := us.map (fun u => max 0 (min 1 u))
    pydiv clamped.sum (clamped.length : ℚ)

/-- Model of `RatingCalculator.compute_share_quality`. -/
def compute_share_quality (metrics : List MinerMetrics) : Option ℚ :=
  let total_valid := (metrics.map (·.valid_shares)).sum
  let total_invalid := (metrics.map (·.invalid_shares)).sum
  let total := total_valid + total_invalid
  if total = 0 then some 1
  else pydiv (total_valid : ℚ) (total : ℚ)

/-- Python `max(iterable, default=d)`. -/
def pymaxD (l : List ℚ) (d : ℚ) : ℚ :=
  match l with
  | [] => d
  | x :: xs => xs.foldl max x

/-- The per-hotkey effective-work table built first by `rate_all`. -/
def rateWork (fexp : ℚ → ℚ) (c : RatingCalculator)
    (metrics : List (String × List MinerMetrics)) : Option (List (String × ℚ)) :=
  metrics.mapM (fun p => (compute_effective_work fexp c p.2).map (fun w => (p.1, w)))

/-- Model of `RatingCalculator.rate_all`: effective work per hotkey, the batch
maximum with Python default `1.0`, then normalization, uptime penalty
(`**` as the opaque `fpow`), share-quality penalty, clamping to `[0,1]`
and rounding to `ndigits` digits. The metrics dict is an association
list with unique keys. -/
def rate_all (fexp : ℚ → ℚ) (fpow : ℚ → ℚ → ℚ) (c : RatingCalculator) (now : ℚ)
    (metrics : List (String × List MinerMetrics)) : Option (List (String × ℚ)) := do
  let work ← rateWork fexp c metrics
  let max_work := pymaxD (work.map (·.2)) 1
  metrics.mapM (fun p => do
    let norm_score ← if max_work = 0 then some 0
      else pydiv ((work.lookup p.1).getD 0) max_work
    let avg_uptime ← compute_avg_uptime c now p.2
    let share_quality ← compute_share_quality p.2
    let up ← pypow fpow avg_uptime c.uptime_alpha
    let penalized_by_uptime := norm_score * up
    let invalid_shares_multiplier :=
      1 - (1 - share_quality) * c.invalid_shares_penalty_factor
    let final_score := penalized_by_uptime * invalid_shares_multiplier
    pure (p.1, pyround c.ndigits (max 0 (min 1 final_score))))

/-- Model of `MinerKey` (`src/metrics.py`): the `(wallet, worker)` key of the
metrics dict. -/
structure MinerKey where
  wallet : String
  worker : String
deriving DecidableEq

/-- Python `dict.get(key)` on the metrics dict. -/
def dictGet (metrics : List (MinerKey × MinerMetrics)) (k : MinerKey) :
    Option MinerMetrics :=
  (metrics.find? (fun p => p.1 = k)).map (·.2)

/-- Python `defaultdict(list)` append: extend the bucket of `hotkey`, creating
it at the end on first use. -/
def bucketAppend : List (String × List MinerMetrics) → String → MinerMetrics →
    List (String × List MinerMetrics)
  | [], hotkey, m => [(hotkey, [m])]
  | b :: rest, hotkey, m =>
    if b.1 = hotkey then (b.1, b.2 ++ [m]) :: rest
    else b :: bucketAppend rest hotkey m

/-- Model of `Validator.get_hotkey_metrics_map` (`src/validator.py`): for every
`(worker, hotkey)` pair of the active mapping, append
`metrics.get((wallet, worker), MinerMetrics.default_instance(worker))`
to the hotkey's bucket. -/
def get_hotkey_metrics_map (wallet : String) (metrics : List (MinerKey × MinerMetrics))
    (mapping : List (String × String)) : List (String × List MinerMetrics) :=
  mapping.foldl
    (fun buckets wh =>
      bucketAppend buckets wh.2
        ((dictGet metrics ⟨wallet, wh.1⟩).getD (MinerMetrics.default_instance (some wh.1))))
    []

/-- Association-list read of a hotkey's bucket (Python dict access on
the defaultdict result). -/
def bucketGet (buckets : List (String × List MinerMetrics)) (hotkey : String) :
    Option (List MinerMetrics) :=
  (buckets.find? (fun b => b.1 = hotkey)).map (·.2)

/-! ### Helper lemmas -/

/-- Truncation toward zero is the floor for nonnegative arguments and
the ceiling for negative ones. -/
theorem pytrunc_eq_floor_ceil (q : ℚ) : pytrunc q = if 0 ≤ q then ⌊q⌋ else ⌈q⌉ := by
  unfold pytrunc
  split
  case _ h =>
    rw [Int.tdiv_eq_ediv (Rat.num_nonneg.2 h) (Int.ofNat_nonneg q.den), Rat.floor_def]
  case _ h =>
    push_neg at h
    have hneg : (0 : ℚ) ≤ -q := by linarith
    have h1 : q.num = -((-q).num) := by rw [Rat.neg_num, neg_neg]
    have h2 : q.den = (-q).den := (Rat.neg_den q).symm
    rw [h1, h2, Int.neg_tdiv,
      Int.tdiv_eq_ediv (Rat.num_nonneg.2 hneg) (Int.ofNat_nonneg (-q).den),
      ← Rat.floor_def, Int.floor_neg, neg_neg]

/-- A successful `add_mapping` appends exactly one row, carrying the
requested worker and hotkey. -/
theorem add_mapping_ok_rows {db : RegistryDB} {max_workers : ℕ}
    {hotkey worker signature : String} {t : PyNum} {db' : RegistryDB}
    (h : add_mapping db max_workers hotkey worker signature t = .ok db') :
    ∃ row : HotkeyWorker, db'.rows = db.rows ++ [row] ∧
      row.worker = worker ∧ row.hotkey = hotkey ∧ row.unbind_signature = none := by
  unfold add_mapping at h
  split at h
  · exact absurd h (by simp)
  · split at h
    · exact absurd h (by simp)
    · cases t with
      | pfloat q => exact ⟨_, by injection h with h; rw [← h], rfl, rfl, rfl⟩
      | pint n => exact ⟨_, by injection h with h; rw [← h], rfl, rfl, rfl⟩

/-- Lemma: `add_mapping` succeeds exactly when the worker is fresh and the
hotkey is under quota. -/
theorem add_mapping_ok_of {db : RegistryDB} {max_workers : ℕ}
    {hotkey worker signature : String} {t : PyNum}
    (hfresh : ∀ r ∈ db.rows, r.worker ≠ worker)
    (hquota : activeCount db hotkey < max_workers) :
    ∃ db', add_mapping db max_workers hotkey worker signature t = .ok db' := by
  have h1 : db.rows.any (fun r => r.worker == worker) = false := by
    simp only [List.any_eq_false, beq_iff_eq]
    exact hfresh
  unfold add_mapping
  rw [h1]
  simp only [Bool.false_eq_true, if_false]
  rw [if_neg (by omega)]
  cases t <;> exact ⟨_, rfl⟩

/-- Lemma: `add_mapping` does not change the offsets table. -/
theorem add_mapping_ok_offsets {db : RegistryDB} {max_workers : ℕ}
    {hotkey worker signature : String} {t : PyNum} {db' : RegistryDB}
    (h : add_mapping db max_workers hotkey worker signature t = .ok db') :
    db'.offsets = db.offsets := by
  unfold add_mapping at h
  split at h
  · exact absurd h (by simp)
  · split at h
    · exact absurd h (by simp)
    · cases t with
      | pfloat q => injection h with h; rw [← h]
      | pint n => injection h with h; rw [← h]

/-- Processing a single fresh, verified record in the tasks.py sync
loop inserts exactly the `add_mapping` row and counts one added
record. -/
theorem tasks_single_record_ok (max_workers : ℕ) (verify_ok : SyncRecord → Bool)
    (db : RegistryDB) (peer : String) (r : SyncRecord) (now : ℚ)
    (hfresh : ∀ x ∈ db.rows, x.worker ≠ r.worker) (hver : verify_ok r = true)
    (hquota : activeCount db r.hotkey < max_workers) :
    ∃ db', add_mapping db max_workers r.hotkey r.worker r.signature
        r.registration_time = .ok db' ∧
      (tasks_process_peer max_workers verify_ok db peer [r] now).db.rows = db'.rows ∧
      (tasks_process_peer max_workers verify_ok db peer [r] now).counts = ⟨1, 0, 0⟩ := by
  obtain ⟨db', hok⟩ := add_mapping_ok_of hfresh hquota
  refine ⟨db', hok, ?_⟩
  have hany : db.rows.any (fun x => x.worker == r.worker) = false := by
    simp only [List.any_eq_false, beq_iff_eq]
    exact hfresh
  unfold tasks_process_peer
  simp only [List.isEmpty_cons, Bool.false_eq_true, if_false,
    List.foldl_cons, List.foldl_nil]
  unfold tasks_process_record
  simp only [hany, Bool.false_eq_true, if_false, hver, Bool.not_true, hok]
  refine ⟨?_, ?_⟩ <;> split <;> simp [update_validator_sync_offset]

/-! ### C4 — duplicate worker always conflicts -/

/-- C4: if any binding (active or unbound, under any hotkey) already
uses the worker name, `add_mapping` fails with the conflict error
`"Worker already registered"`, whatever the signature and registration
time are; no row is inserted (the error returns before any mutation). -/
theorem bind_conflict_on_existing_worker (db : RegistryDB) (max_workers : ℕ)
    (hotkey worker signature : String) (t : PyNum)
    (h : ∃ r ∈ db.rows, r.worker = worker) :
    add_mapping db max_workers hotkey worker signature t =
      .error "Worker already registered" := by
  unfold add_mapping
  rw [if_pos]
  simp only [List.any_eq_true, beq_iff_eq]
  exact h

/-- Witness for C4: a one-row registry (an unbound row under another
hotkey) rejects a re-registration of the same worker. -/
theorem bind_conflict_on_existing_worker_witness :
    (∃ r ∈ (⟨[⟨"w", "h", 5, 5000000, "sig", some "u"⟩], []⟩ : RegistryDB).rows,
        r.worker = "w") ∧
    add_mapping ⟨[⟨"w", "h", 5, 5000000, "sig", some "u"⟩], []⟩ 30 "h2" "w" "s2" (.pint 7) =
      .error "Worker already registered" :=
  ⟨⟨_, List.mem_singleton_self _, rfl⟩,
    bind_conflict_on_existing_worker _ 30 "h2" "w" "s2" (.pint 7)
      ⟨_, List.mem_singleton_self _, rfl⟩⟩

/-! ### C7 — uptime fraction boundaries -/

/-- C7: with a positive window `W`, the uptime fraction is `0` for a
future start, `1` for a start at or before `now - W`, and
`(now - start) / W` in between; in particular `start = now` gives `0`,
`start = now - W` gives `1`, and `start = now - W/2` gives `1/2`. -/
theorem fractional_uptime_boundaries (c : RatingCalculator) (now start : ℚ)
    (hW : 0 < c.window_seconds) :
    (now < start → compute_fractional_uptime c now start = some 0) ∧
    (start ≤ now - c.window_seconds → compute_fractional_uptime c now start = some 1) ∧
    (now - c.window_seconds < start → start ≤ now →
      compute_fractional_uptime c now start = some ((now - start) / c.window_seconds)) ∧
    compute_fractional_uptime c now now = some 0 ∧
    compute_fractional_uptime c now (now - c.window_seconds) = some 1 ∧
    compute_fractional_uptime c now (now - c.window_seconds / 2) = some (1 / 2) := by
  have hW' : c.window_seconds ≠ 0 := ne_of_gt hW
  refine ⟨?_, ?_, ?_, ?_, ?_, ?_⟩ <;> unfold compute_fractional_uptime pydiv
  · intro h
    rw [if_pos h]
  · intro h
    by_cases h2 : start < now - c.window_seconds
    · rw [if_neg (by linarith), if_pos h2]
    · have he : start = now - c.window_seconds := le_antisymm h (by linarith)
      rw [if_neg (by linarith), if_neg h2, if_neg hW']
      have hv : (now - start) / c.window_seconds = 1 := by
        rw [he]
        field_simp
      rw [hv]
  · intro h1 h2
    rw [if_neg (by linarith), if_neg (by linarith), if_neg hW']
  · rw [if_neg (by linarith), if_neg (by linarith), if_neg hW']
    have hv : (now - now) / c.window_seconds = 0 := by
      rw [sub_self]
      exact zero_div _
    rw [hv]
  · rw [if_neg (by linarith), if_neg (by linarith), if_neg hW']
    have hv : (now - (now - c.window_seconds)) / c.window_seconds = 1 := by
      field_simp
    rw [hv]
  · rw [if_neg (by linarith), if_neg (by linarith), if_neg hW']
    have hv : (now - (now - c.window_seconds / 2)) / c.window_seconds = 1 / 2 := by
      rw [sub_sub_cancel]
      rw [div_div]
      rw [div_eq_div_iff (by positivity) (by norm_num)]
      ring
    rw [hv]

/-- Witness for C7: window of 2 seconds, `now = 10`. -/
theorem fractional_uptime_boundaries_witness :
    (0 : ℚ) < (⟨2, 2, 8, 16384, 1/2⟩ : RatingCalculator).window_seconds ∧
    ((10 : ℚ) < 11 → compute_fractional_uptime ⟨2, 2, 8, 16384, 1/2⟩ 10 11 = some 0) ∧
    ((11 : ℚ) ≤ 10 - (2:ℚ) → compute_fractional_uptime ⟨2, 2, 8, 16384, 1/2⟩ 10 11 = some 1) ∧
    ((10 : ℚ) - 2 < 11 → (11:ℚ) ≤ 10 →
      compute_fractional_uptime ⟨2, 2, 8, 16384, 1/2⟩ 10 11 = some ((10 - 11) / 2)) ∧
    compute_fractional_uptime ⟨2, 2, 8, 16384, 1/2⟩ 10 10 = some 0 ∧
    compute_fractional_uptime ⟨2, 2, 8, 16384, 1/2⟩ 10 (10 - 2) = some 1 ∧
    compute_fractional_uptime ⟨2, 2, 8, 16384, 1/2⟩ 10 (10 - 2 / 2) = some (1 / 2) :=
  ⟨by norm_num, fractional_uptime_boundaries ⟨2, 2, 8, 16384, 1/2⟩ 10 11 (by norm_num)⟩

/-! ### C1 — scaled integer derivation -/

/-- Counterexample to C1: a successful bind with float registration
time `0.0000006` persists `registration_time_int = 0` (Python `int()`
truncates), while `round(0.0000006 * 1_000_000) = round(0.6) = 1`. -/
theorem scaled_int_round_cx :
    add_mapping ⟨[], []⟩ 30 "hk" "hkw" "sig" (.pfloat 0.0000006) =
      .ok ⟨[⟨"hkw", "hk", 0.0000006, 0, "sig", none⟩], []⟩ ∧
    (0 : ℤ) ≠ round ((0.0000006 : ℚ) * 1000000) := by
  constructor
  · unfold add_mapping activeCount
    simp only [List.any_nil, Bool.false_eq_true, if_false, List.filter_nil,
      List.length_nil, List.nil_append]
    rw [if_neg (by norm_num)]
    norm_num [pytrunc_eq_floor_ceil]
  · norm_num [round_eq]

/-- C1 amended: on every successful bind with a float registration
time, the persisted `registration_time_int` is the truncation toward
zero of `registration_time * 1_000_000` (Python `int()`), and the float
is persisted as given; truncation differs from rounding whenever the
scaled value has fractional part at least one half. -/
theorem scaled_int_is_trunc (db : RegistryDB) (max_workers : ℕ)
    (hotkey worker signature : String) (q : ℚ) (db' : RegistryDB)
    (hok : add_mapping db max_workers hotkey worker signature (.pfloat q) = .ok db') :
    db'.rows = db.rows ++ [⟨worker, hotkey, q, pytrunc (q * 1000000), signature, none⟩] := by
  unfold add_mapping at hok
  split at hok
  · exact absurd hok (by simp)
  · split at hok
    · exact absurd hok (by simp)
    · injection hok with hok
      rw [← hok]

/-- Witness for the amended C1 at registration time `5.0`. -/
theorem scaled_int_is_trunc_witness :
    add_mapping ⟨[], []⟩ 30 "h" "hw" "s" (.pfloat 5) =
      .ok ⟨[⟨"hw", "h", 5, 5000000, "s", none⟩], []⟩ ∧
    (⟨[⟨"hw", "h", 5, 5000000, "s", none⟩], []⟩ : RegistryDB).rows =
      (⟨[], []⟩ : RegistryDB).rows ++
        [⟨"hw", "h", 5, pytrunc (5 * 1000000), "s", none⟩] := by
  have h1 : add_mapping ⟨[], []⟩ 30 "h" "hw" "s" (.pfloat 5) =
      .ok ⟨[⟨"hw", "h", 5, 5000000, "s", none⟩], []⟩ := by
    unfold add_mapping activeCount
    simp only [List.any_nil, Bool.false_eq_true, if_false, List.filter_nil,
      List.length_nil, List.nil_append]
    rw [if_neg (by norm_num)]
    norm_num [pytrunc_eq_floor_ceil]
  exact ⟨h1, scaled_int_is_trunc _ _ _ _ _ _ _ h1⟩

/-! ### C10 — int-typed registration time means microseconds -/

/-- C10: an int-typed `registration_time` is stored as
`registration_time = n / 1_000_000` and `registration_time_int = n`
(microseconds interpretation), and the tasks.py sync loop hands the
JSON-decoded value to `add_mapping` unconverted: merging a fresh,
verified single-record batch inserts exactly the row `add_mapping`
builds from that value. -/
theorem int_time_is_microseconds :
    (∀ (db : RegistryDB) (max_workers : ℕ) (hotkey worker signature : String)
        (n : ℤ) (db' : RegistryDB),
      add_mapping db max_workers hotkey worker signature (.pint n) = .ok db' →
      db'.rows = db.rows ++ [⟨worker, hotkey, (n : ℚ) / 1000000, n, signature, none⟩]) ∧
    (∀ (max_workers : ℕ) (verify_ok : SyncRecord → Bool) (db : RegistryDB)
        (peer : String) (r : SyncRecord) (now : ℚ),
      (∀ x ∈ db.rows, x.worker ≠ r.worker) → verify_ok r = true →
      activeCount db r.hotkey < max_workers →
      ∃ db', add_mapping db max_workers r.hotkey r.worker r.signature
          r.registration_time = .ok db' ∧
        (tasks_process_peer max_workers verify_ok db peer [r] now).db.rows = db'.rows) := by
  constructor
  · intro db max_workers hotkey worker signature n db' hok
    unfold add_mapping at hok
    split at hok
    · exact absurd hok (by simp)
    · split at hok
      · exact absurd hok (by simp)
      · injection hok with hok
        rw [← hok]
  · intro max_workers verify_ok db peer r now hfresh hver hquota
    obtain ⟨db', hok, hrows, _⟩ := tasks_single_record_ok max_workers verify_ok
      db peer r now hfresh hver hquota
    exact ⟨db', hok, hrows⟩

/-- Witness for C10: merging one fresh, verified record with the
JSON-integer registration time `5000000`. -/
theorem int_time_is_microseconds_witness :
    ∃ db', add_mapping ⟨[], []⟩ 30 "h" "hw" "sg" (.pint 5000000) = .ok db' ∧
      (tasks_process_peer 30 (fun _ => true) ⟨[], []⟩ "p"
        [⟨"hw", "h", .pint 5000000, "sg"⟩] 9).db.rows = db'.rows :=
  int_time_is_microseconds.2 30 (fun _ => true) ⟨[], []⟩ "p"
    ⟨"hw", "h", .pint 5000000, "sg"⟩ 9 (by simp) rfl (by simp [activeCount])



/-! ### C2 — naming convention at ingestion points -/

/-- Counterexample to C2: the sync task of `src/tasks.py` performs no
hotkey-substring check at all. A fetched record with hotkey `"h"` and
worker `"w"` (`"h"` is not a substring of `"w"`) whose signature
verifies and whose worker is fresh is merged into the registry and
counted as added — neither rejected nor counted as failed. -/
theorem sync_merges_naming_violation_cx :
    pyIn "h" "w" = false ∧
    (tasks_process_peer 30 (fun _ => true) ⟨[], []⟩ "p"
      [⟨"w", "h", .pfloat 5, "sg"⟩] 9).counts = ⟨1, 0, 0⟩ ∧
    ∃ row, (tasks_process_peer 30 (fun _ => true) ⟨[], []⟩ "p"
        [⟨"w", "h", .pfloat 5, "sg"⟩] 9).db.rows = [row] ∧
      row.worker = "w" ∧ row.hotkey = "h" := by
  obtain ⟨db', hok, hrows, hcounts⟩ := tasks_single_record_ok 30 (fun _ => true)
    ⟨[], []⟩ "p" ⟨"w", "h", .pfloat 5, "sg"⟩ 9 (by simp) rfl (by simp [activeCount])
  obtain ⟨row, hr2, hw, hh, _⟩ := add_mapping_ok_rows hok
  refine ⟨rfl, hcounts, row, ?_, hw, hh⟩
  rw [hrows, hr2]
  rfl

/-- C2 amended: only the `src/main.py` variant of the sync task
enforces the naming convention, and it counts a violating record as
skipped, not failed; every row present after its per-peer pass either
was already stored or satisfies the convention. The `src/tasks.py`
variant performs no such check and merges violating records (see the
counterexample). -/
theorem main_sync_rows_respect_naming (max_workers : ℕ) (db : RegistryDB)
    (peer : String) (workers : List SyncRecord) (now : ℚ) (r : HotkeyWorker)
    (hr : r ∈ (main_process_peer max_workers db peer workers now).db.rows) :
    r ∈ db.rows ∨ pyIn r.hotkey r.worker = true := by
  have key : ∀ (ws : List SyncRecord) (st : MainSyncState),
      r ∈ (ws.foldl (main_process_record max_workers) st).db.rows →
      r ∈ st.db.rows ∨ pyIn r.hotkey r.worker = true := by
    intro ws
    induction ws with
    | nil => intro st h; exact Or.inl h
    | cons w rest ih =>
      intro st h
      rcases ih _ h with h' | h'
      · by_cases hc : pyIn w.hotkey w.worker = true
        · unfold main_process_record at h'
          rw [hc] at h'
          simp only [Bool.not_true, Bool.false_eq_true, if_false] at h'
          cases hadd : add_mapping st.db max_workers w.hotkey w.worker
              w.signature w.registration_time with
          | ok db' =>
            rw [hadd] at h'
            simp only at h'
            obtain ⟨row, hrows, hw, hh, _⟩ := add_mapping_ok_rows hadd
            rw [hrows] at h'
            rcases List.mem_append.1 h' with h'' | h''
            · exact Or.inl h''
            · rcases List.mem_singleton.1 h'' with rfl
              rw [hh, hw]
              exact Or.inr hc
          | error e =>
            rw [hadd] at h'
            exact Or.inl h'
        · unfold main_process_record at h'
          rw [Bool.not_eq_true] at hc
          rw [hc] at h'
          simp only [Bool.not_false, if_true] at h'
          exact Or.inl h'
      · exact Or.inr h'
  simp only [main_process_peer] at hr
  split at hr
  · simp only [update_validator_sync_offset] at hr
    exact key workers _ hr
  · exact key workers _ hr

/-- Witness for the amended C2: an empty batch leaves the single stored
row in place. -/
theorem main_sync_rows_respect_naming_witness :
    (⟨"w", "h", 5, 5000000, "s", none⟩ : HotkeyWorker) ∈
      (main_process_peer 30 ⟨[⟨"w", "h", 5, 5000000, "s", none⟩], []⟩ "p" [] 9).db.rows ∧
    ((⟨"w", "h", 5, 5000000, "s", none⟩ : HotkeyWorker) ∈
        (⟨[⟨"w", "h", 5, 5000000, "s", none⟩], []⟩ : RegistryDB).rows ∨
      pyIn "h" "w" = true) := by
  have hmem : (⟨"w", "h", 5, 5000000, "s", none⟩ : HotkeyWorker) ∈
      (main_process_peer 30 ⟨[⟨"w", "h", 5, 5000000, "s", none⟩], []⟩ "p" [] 9).db.rows := by
    simp [main_process_peer, get_validator_sync_offset]
  exact ⟨hmem, main_sync_rows_respect_naming 30 _ "p" [] 9 _ hmem⟩

/-! ### C3 — peer offset behaviour -/

/-- Reading a peer's offset right after upserting it returns the
upserted watermark. -/
theorem get_offsetsUpsert (l : List ValidatorSyncOffset) (p : String) (t now : ℚ) :
    (match (offsetsUpsert l p t now).find? (fun o => o.hotkey == p) with
      | some o => o.last_registration_time
      | none => 0) = t := by
  induction l with
  | nil => simp [offsetsUpsert, List.find?]
  | cons o rest ih =>
    unfold offsetsUpsert
    by_cases hc : (o.hotkey == p) = true
    · rw [if_pos hc]
      rw [List.find?_cons]
      simp only [hc]
    · have hcf : (o.hotkey == p) = false := by simpa using hc
      rw [if_neg (by simpa using hc)]
      rw [List.find?_cons]
      simp only [hcf]
      exact ih

/-- Reading `get_validator_sync_offset` after `update_validator_sync_offset`. -/
theorem offset_after_update (db : RegistryDB) (p : String) (t now : ℚ) :
    get_validator_sync_offset (update_validator_sync_offset db p t now) p = t := by
  unfold get_validator_sync_offset update_validator_sync_offset
  exact get_offsetsUpsert db.offsets p t now

/-- The offset read depends only on the offsets table. -/
theorem offset_congr {db1 db2 : RegistryDB} (p : String)
    (h : db1.offsets = db2.offsets) :
    get_validator_sync_offset db1 p = get_validator_sync_offset db2 p := by
  unfold get_validator_sync_offset
  rw [h]

/-- Each record-loop iteration of the tasks.py sync sets `latest` to the
running maximum. -/
theorem tasks_record_latest (max_workers : ℕ) (verify_ok : SyncRecord → Bool)
    (st : TasksSyncState) (r : SyncRecord) :
    (tasks_process_record max_workers verify_ok st r).latest =
      max st.latest r.registration_time.val := by
  have hmax : (if st.latest < r.registration_time.val then r.registration_time.val
      else st.latest) = max st.latest r.registration_time.val := by
    rcases lt_or_ge st.latest r.registration_time.val with h | h
    · rw [if_pos h, max_eq_right (le_of_lt h)]
    · rw [if_neg (not_lt.2 h), max_eq_left h]
  simp only [tasks_process_record]
  split
  · exact hmax
  · split
    · exact hmax
    · split <;> exact hmax

/-- The record loop never touches the offsets table. -/
theorem tasks_record_offsets (max_workers : ℕ) (verify_ok : SyncRecord → Bool)
    (st : TasksSyncState) (r : SyncRecord) :
    (tasks_process_record max_workers verify_ok st r).db.offsets = st.db.offsets := by
  simp only [tasks_process_record]
  split
  · rfl
  · split
    · rfl
    · split
      case _ db' heq => exact add_mapping_ok_offsets heq
      case _ => rfl

/-- Folding the record loop computes the maximum of the registration
times over the starting value. -/
theorem tasks_fold_latest (max_workers : ℕ) (verify_ok : SyncRecord → Bool)
    (ws : List SyncRecord) :
    ∀ st : TasksSyncState,
      (ws.foldl (tasks_process_record max_workers verify_ok) st).latest =
        ws.foldl (fun a r => max a r.registration_time.val) st.latest := by
  induction ws with
  | nil => intro st; rfl
  | cons w rest ih =>
    intro st
    simp only [List.foldl_cons]
    rw [ih, tasks_record_latest]

/-- Folding the record loop leaves the offsets table unchanged. -/
theorem tasks_fold_offsets (max_workers : ℕ) (verify_ok : SyncRecord → Bool)
    (ws : List SyncRecord) :
    ∀ st : TasksSyncState,
      (ws.foldl (tasks_process_record max_workers verify_ok) st).db.offsets =
        st.db.offsets := by
  induction ws with
  | nil => intro st; rfl
  | cons w rest ih =>
    intro st
    simp only [List.foldl_cons]
    rw [ih, tasks_record_offsets]

/-- The starting value bounds the running maximum from below. -/
theorem le_fold_max (ws : List SyncRecord) :
    ∀ a : ℚ, a ≤ ws.foldl (fun x r => max x r.registration_time.val) a := by
  induction ws with
  | nil => intro a; exact le_refl a
  | cons w rest ih =>
    intro a
    simp only [List.foldl_cons]
    exact le_trans (le_max_left _ _) (ih _)

/-- C3 amended: after a per-peer pass of the tasks.py sync, the stored
offset equals the maximum of the previous offset and all fetched
registration times — it advances whenever any fetched record (merged,
skipped or failed) carries a newer registration time, and it never
decreases. -/
theorem peer_offset_after_sync (max_workers : ℕ) (verify_ok : SyncRecord → Bool)
    (db : RegistryDB) (peer : String) (workers : List SyncRecord) (now : ℚ) :
    get_validator_sync_offset (tasks_process_peer max_workers verify_ok
        db peer workers now).db peer =
      workers.foldl (fun a r => max a r.registration_time.val)
        (get_validator_sync_offset db peer) ∧
    get_validator_sync_offset db peer ≤
      get_validator_sync_offset (tasks_process_peer max_workers verify_ok
        db peer workers now).db peer := by
  by_cases hemp : workers.isEmpty = true
  · rw [List.isEmpty_iff.1 hemp]
    simp [tasks_process_peer]
  · have hempf : workers.isEmpty = false := by simpa using hemp
    have hlat := tasks_fold_latest max_workers verify_ok workers
      ⟨db, get_validator_sync_offset db peer, ⟨0, 0, 0⟩⟩
    have hoff := tasks_fold_offsets max_workers verify_ok workers
      ⟨db, get_validator_sync_offset db peer, ⟨0, 0, 0⟩⟩
    have hle := le_fold_max workers (get_validator_sync_offset db peer)
    simp only [tasks_process_peer, hempf, Bool.false_eq_true, if_false]
    split
    case _ hadv =>
      rw [offset_after_update]
      rw [hlat] at hadv ⊢
      exact ⟨rfl, le_of_lt hadv⟩
    case _ hadv =>
      rw [hlat] at hadv
      rw [offset_congr peer hoff]
      exact ⟨le_antisymm hle (not_lt.1 hadv), le_refl _⟩

/-- Counterexample to C3: one fetched record whose worker already
exists locally but whose registration time (5) exceeds the stored
offset (0) is skipped — nothing is merged (`added = 0`) — yet the
peer's offset is still advanced from 0 to 5, contradicting "left
untouched whenever no new record was actually merged". -/
theorem peer_offset_advances_without_merge_cx :
    (tasks_process_peer 30 (fun _ => true) ⟨[⟨"w", "x", 1, 1000000, "s", none⟩], []⟩
      "p" [⟨"w", "h2", .pfloat 5, "sg"⟩] 9).counts = ⟨0, 1, 0⟩ ∧
    get_validator_sync_offset ⟨[⟨"w", "x", 1, 1000000, "s", none⟩], []⟩ "p" = 0 ∧
    get_validator_sync_offset (tasks_process_peer 30 (fun _ => true)
      ⟨[⟨"w", "x", 1, 1000000, "s", none⟩], []⟩
      "p" [⟨"w", "h2", .pfloat 5, "sg"⟩] 9).db "p" = 5 := by decide

/-! ### C5 — quota cycle -/

/-- Lemma: `add_mapping` fails with the quota error whenever the worker is
fresh but the hotkey is at (or over) its active-binding quota. -/
theorem add_mapping_quota_error {db : RegistryDB} {max_workers : ℕ}
    {hotkey worker signature : String} {t : PyNum}
    (hfresh : ∀ r ∈ db.rows, r.worker ≠ worker)
    (hfull : max_workers ≤ activeCount db hotkey) :
    add_mapping db max_workers hotkey worker signature t =
      .error ("Maximum number of workers (" ++ toString max_workers ++
        ") for this hotkey reached") := by
  have h1 : db.rows.any (fun r => r.worker == worker) = false := by
    simp only [List.any_eq_false, beq_iff_eq]
    exact hfresh
  unfold add_mapping
  rw [h1]
  simp only [Bool.false_eq_true, if_false]
  rw [if_pos hfull]

/-- Unbinding an active `(hotkey, worker)` row in a table with unique
worker names succeeds, keeps the worker column unchanged, and lowers
the hotkey's active-binding count by exactly one. -/
theorem unbindRows_spec :
    ∀ (l : List HotkeyWorker) (h w u : String),
      (l.map (·.worker)).Nodup →
      ∀ r ∈ l, r.hotkey = h → r.worker = w → r.unbind_signature = none →
      ∃ l', unbindRows l h w u = .ok l' ∧
        l'.map (·.worker) = l.map (·.worker) ∧
        (l'.filter (fun x => x.hotkey == h && x.unbind_signature == none)).length + 1 =
          (l.filter (fun x => x.hotkey == h && x.unbind_signature == none)).length := by
  intro l h w u
  induction l with
  | nil => intro _ r hr; exact absurd hr (List.not_mem_nil r)
  | cons a rest ih =>
    intro hnd r hr hrh hrw hru
    rw [List.map_cons, List.nodup_cons] at hnd
    by_cases hmatch : (a.hotkey == h && a.worker == w) = true
    · have haw : a.worker = w := by
        simpa using (Bool.and_elim_right hmatch)
      have hra : r = a := by
        rcases List.mem_cons.1 hr with h' | h'
        · exact h'
        · exfalso
          have hmem : r.worker ∈ List.map (fun x => x.worker) rest :=
            List.mem_map_of_mem _ h'
          rw [hrw, ← haw] at hmem
          exact hnd.1 hmem
      unfold unbindRows
      rw [if_pos hmatch]
      rw [← hra, hru]
      simp only [pyTruthyStr, Bool.false_eq_true, if_false]
      refine ⟨_, rfl, rfl, ?_⟩
      simp [List.filter_cons, hrh, hru]
    · have hra : r ≠ a := by
        intro hc
        rw [← hc] at hmatch
        rw [hrh, hrw] at hmatch
        simp at hmatch
      have hrrest : r ∈ rest := by
        rcases List.mem_cons.1 hr with h' | h'
        · exact absurd h' hra
        · exact h'
      obtain ⟨rest', hok, hmapw, hcnt⟩ := ih hnd.2 r hrrest hrh hrw hru
      unfold unbindRows
      rw [if_neg (by simpa using hmatch)]
      rw [hok]
      refine ⟨_, rfl, ?_, ?_⟩
      · simp only [List.map_cons, hmapw]
      · rw [List.filter_cons, List.filter_cons]
        by_cases hpass : (a.hotkey == h && a.unbind_signature == none) = true
        · rw [hpass]
          simp only [if_true, List.length_cons]
          omega
        · rw [Bool.not_eq_true] at hpass
          rw [hpass]
          simp only [Bool.false_eq_true, if_false]
          exact hcnt

/-- C5: a hotkey at its quota of active bindings is refused a further
bind for a fresh worker with the QuotaExceeded error; after unbinding
one active binding, exactly one further bind succeeds and the next
again fails with the quota error. -/
theorem quota_cycle (db : RegistryDB) (max_workers : ℕ)
    (h w0 w1 w2 usig s1 s2 : String) (t1 t2 : PyNum) (r : HotkeyWorker)
    (hnd : (db.rows.map (·.worker)).Nodup)
    (hr : r ∈ db.rows) (hrh : r.hotkey = h) (hrw : r.worker = w0)
    (hru : r.unbind_signature = none)
    (hfull : activeCount db h = max_workers)
    (hf1 : ∀ x ∈ db.rows, x.worker ≠ w1) (hf2 : ∀ x ∈ db.rows, x.worker ≠ w2)
    (hw12 : w1 ≠ w2) :
    add_mapping db max_workers h w1 s1 t1 =
      .error ("Maximum number of workers (" ++ toString max_workers ++
        ") for this hotkey reached") ∧
    ∃ db1 db2, mark_worker_unbound db h w0 usig = .ok db1 ∧
      add_mapping db1 max_workers h w1 s1 t1 = .ok db2 ∧
      add_mapping db2 max_workers h w2 s2 t2 =
        .error ("Maximum number of workers (" ++ toString max_workers ++
          ") for this hotkey reached") := by
  obtain ⟨l', hok, hmapw, hcnt⟩ := unbindRows_spec db.rows h w0 usig hnd r hr hrh hrw hru
  have hunb : mark_worker_unbound db h w0 usig = .ok { db with rows := l' } := by
    unfold mark_worker_unbound
    rw [hok]
    rfl
  have hfresh1 : ∀ x ∈ ({ db with rows := l' } : RegistryDB).rows, x.worker ≠ w1 := by
    intro x hx hcontra
    have hmem : x.worker ∈ l'.map (fun y => y.worker) := List.mem_map_of_mem _ hx
    rw [hmapw] at hmem
    obtain ⟨y, hy, hyw⟩ := List.mem_map.1 hmem
    exact hf1 y hy (hyw.trans hcontra)
  have hcount1 : activeCount { db with rows := l' } h < max_workers := by
    have : activeCount { db with rows := l' } h + 1 = activeCount db h := hcnt
    omega
  obtain ⟨db2, hok2⟩ := @add_mapping_ok_of { db with rows := l' } max_workers h w1 s1 t1 hfresh1 hcount1
  obtain ⟨row1, hrows2, hw1, hh1, hu1⟩ := add_mapping_ok_rows hok2
  have hfresh2 : ∀ x ∈ db2.rows, x.worker ≠ w2 := by
    intro x hx hcontra
    rw [hrows2] at hx
    rcases List.mem_append.1 hx with hx' | hx'
    · have hmem : x.worker ∈ l'.map (fun y => y.worker) := List.mem_map_of_mem _ hx'
      rw [hmapw] at hmem
      obtain ⟨y, hy, hyw⟩ := List.mem_map.1 hmem
      exact hf2 y hy (hyw.trans hcontra)
    · rcases List.mem_singleton.1 hx' with rfl
      rw [hw1] at hcontra
      exact hw12 hcontra
  have hfull2 : max_workers ≤ activeCount db2 h := by
    have hpass : (row1.hotkey == h && row1.unbind_signature == none) = true := by
      rw [hh1, hu1]
      simp
    have h2 : activeCount db2 h = activeCount { db with rows := l' } h + 1 := by
      unfold activeCount
      rw [hrows2, List.filter_append]
      simp [List.filter_cons, hpass]
    have h3 : activeCount { db with rows := l' } h + 1 = activeCount db h := hcnt
    have h4 : activeCount db h = max_workers := hfull
    omega
  exact ⟨add_mapping_quota_error hf1 (le_of_eq hfull.symm),
    { db with rows := l' }, db2, hunb, hok2,
    add_mapping_quota_error hfresh2 hfull2⟩

/-- Witness for C5: quota 1, one active binding, unbind it, rebind a
fresh worker, then a second fresh worker is refused. -/
theorem quota_cycle_witness :
    ((⟨[⟨"w0", "h", 1, 1000000, "s", none⟩], []⟩ : RegistryDB).rows.map
        (·.worker)).Nodup ∧
    activeCount ⟨[⟨"w0", "h", 1, 1000000, "s", none⟩], []⟩ "h" = 1 ∧
    (add_mapping ⟨[⟨"w0", "h", 1, 1000000, "s", none⟩], []⟩ 1 "h" "w1" "s1" (.pint 3) =
      .error ("Maximum number of workers (" ++ toString 1 ++
        ") for this hotkey reached") ∧
    ∃ db1 db2,
      mark_worker_unbound ⟨[⟨"w0", "h", 1, 1000000, "s", none⟩], []⟩ "h" "w0" "u" =
        .ok db1 ∧
      add_mapping db1 1 "h" "w1" "s1" (.pint 3) = .ok db2 ∧
      add_mapping db2 1 "h" "w2" "s2" (.pint 4) =
        .error ("Maximum number of workers (" ++ toString 1 ++
          ") for this hotkey reached")) := by
  refine ⟨by decide, by decide, ?_⟩
  exact quota_cycle ⟨[⟨"w0", "h", 1, 1000000, "s", none⟩], []⟩ 1 "h" "w0" "w1" "w2"
    "u" "s1" "s2" (.pint 3) (.pint 4) ⟨"w0", "h", 1, 1000000, "s", none⟩
    (by decide) (List.mem_singleton_self _) rfl rfl rfl (by decide)
    (by decide) (by decide) (by decide)

/-! ### C6 — listSince ordering, filtering and pagination -/

/-- An integer strictly above the truncation of `q` is strictly above
`q` itself. -/
theorem lt_of_pytrunc_lt {q : ℚ} {z : ℤ} (h : pytrunc q < z) : q < (z : ℚ) := by
  rw [pytrunc_eq_floor_ceil] at h
  split at h
  · exact Int.floor_lt.1 h
  · exact lt_of_le_of_lt (Int.le_ceil q) (by exact_mod_cast h)

/-- Counterexample to C6: two bindings sharing `registration_time_int`
make the returned page non-strictly ordered — the claimed strict
ascending order fails on ties. -/
theorem listSince_not_strict_cx :
    ¬ List.Pairwise (fun a b => a.registration_time_int < b.registration_time_int)
      (get_hotkey_workers_by_time
        ⟨[⟨"wa", "h", 5, 5, "s", none⟩, ⟨"wb", "h", 5, 5, "s", none⟩], []⟩ 0 10 1) := by
  have h0 : pytrunc ((0 : ℚ) * 1000000) = 0 := by
    norm_num [pytrunc_eq_floor_ceil]
  simp only [get_hotkey_workers_by_time, h0]
  decide

/-- C6 amended: the returned page is the `page_number`-th offset-based
page (1-indexed) of a sorted permutation of the rows passing the
truncated-bound filter; it is ordered non-strictly ascending by
`registration_time_int` (strictness fails on ties), and every returned
record satisfies `registration_time_int > since_timestamp * 1_000_000`. -/
theorem listSince_page_spec (db : RegistryDB) (since_timestamp : ℚ)
    (page_size page_number : ℕ) (hpage : 1 ≤ page_number) :
    ∃ S : List HotkeyWorker,
      List.Sorted regLE S ∧
      S.Perm (db.rows.filter
        (fun r => pytrunc (since_timestamp * 1000000) < r.registration_time_int)) ∧
      get_hotkey_workers_by_time db since_timestamp page_size page_number =
        ((S.drop ((page_number - 1) * page_size)).take page_size).map
          HotkeyWorker.toDict ∧
      List.Pairwise (fun a b => a.registration_time_int ≤ b.registration_time_int)
        (get_hotkey_workers_by_time db since_timestamp page_size page_number) ∧
      ∀ d ∈ get_hotkey_workers_by_time db since_timestamp page_size page_number,
        since_timestamp * 1000000 < (d.registration_time_int : ℚ) := by
  refine ⟨List.insertionSort regLE (db.rows.filter
      (fun r => pytrunc (since_timestamp * 1000000) < r.registration_time_int)),
    List.sorted_insertionSort regLE _, List.perm_insertionSort regLE _, rfl, ?_, ?_⟩
  · have hsub : ((List.insertionSort regLE (db.rows.filter
        (fun r => pytrunc (since_timestamp * 1000000) < r.registration_time_int))).drop
          ((page_number - 1) * page_size) |>.take page_size).Sublist
        (List.insertionSort regLE (db.rows.filter
          (fun r => pytrunc (since_timestamp * 1000000) < r.registration_time_int))) :=
      (List.take_sublist _ _).trans (List.drop_sublist _ _)
    have hp : List.Pairwise regLE (((List.insertionSort regLE (db.rows.filter
        (fun r => pytrunc (since_timestamp * 1000000) < r.registration_time_int))).drop
          ((page_number - 1) * page_size)).take page_size) :=
      (List.sorted_insertionSort regLE _).sublist hsub
    exact hp.map _ (fun a b hab => hab)
  · intro d hd
    obtain ⟨r, hrmem, rfl⟩ := List.mem_map.1 hd
    have hrS : r ∈ List.insertionSort regLE (db.rows.filter
        (fun r => pytrunc (since_timestamp * 1000000) < r.registration_time_int)) :=
      ((List.take_sublist _ _).trans (List.drop_sublist _ _)).subset hrmem
    have hrf : r ∈ db.rows.filter
        (fun r => pytrunc (since_timestamp * 1000000) < r.registration_time_int) :=
      (List.perm_insertionSort regLE _).mem_iff.1 hrS
    have hlt : pytrunc (since_timestamp * 1000000) < r.registration_time_int :=
      of_decide_eq_true (List.mem_filter.1 hrf).2
    exact lt_of_pytrunc_lt hlt

/-- Witness for the amended C6 on an empty registry, page 1 of size 1. -/
theorem listSince_page_spec_witness :
    1 ≤ 1 ∧
    ∃ S : List HotkeyWorker,
      List.Sorted regLE S ∧
      S.Perm ((⟨[], []⟩ : RegistryDB).rows.filter
        (fun r => pytrunc ((0 : ℚ) * 1000000) < r.registration_time_int)) ∧
      get_hotkey_workers_by_time ⟨[], []⟩ 0 1 1 =
        ((S.drop ((1 - 1) * 1)).take 1).map HotkeyWorker.toDict ∧
      List.Pairwise (fun a b => a.registration_time_int ≤ b.registration_time_int)
        (get_hotkey_workers_by_time ⟨[], []⟩ 0 1 1) ∧
      ∀ d ∈ get_hotkey_workers_by_time ⟨[], []⟩ 0 1 1,
        (0 : ℚ) * 1000000 < (d.registration_time_int : ℚ) :=
  ⟨le_refl 1, listSince_page_spec ⟨[], []⟩ 0 1 1 (le_refl 1)⟩

/-! ### C9 — defaulted metrics for unmatched workers -/

/-- Appending to a hotkey's bucket extends exactly that bucket. -/
theorem bucketGet_append_same :
    ∀ (bs : List (String × List MinerMetrics)) (h : String) (m : MinerMetrics),
      bucketGet (bucketAppend bs h m) h = some ((bucketGet bs h).getD [] ++ [m]) := by
  intro bs h m
  induction bs with
  | nil => simp [bucketAppend, bucketGet, List.find?]
  | cons b rest ih =>
    by_cases hb : b.1 = h
    · unfold bucketAppend
      rw [if_pos hb]
      simp [bucketGet, List.find?_cons, hb]
    · unfold bucketAppend
      rw [if_neg hb]
      simp only [bucketGet, List.find?_cons]
      rw [decide_eq_false hb]
      exact ih

/-- Appending to one bucket leaves other buckets unchanged. -/
theorem bucketGet_append_other :
    ∀ (bs : List (String × List MinerMetrics)) (h h' : String) (m : MinerMetrics),
      h' ≠ h → bucketGet (bucketAppend bs h m) h' = bucketGet bs h' := by
  intro bs h h' m hne
  induction bs with
  | nil =>
    unfold bucketAppend bucketGet
    rw [List.find?_cons]
    rw [decide_eq_false (Ne.symm hne)]
  | cons b rest ih =>
    by_cases hb : b.1 = h
    · unfold bucketAppend
      rw [if_pos hb]
      have hb' : ¬ b.1 = h' := by rw [hb]; exact Ne.symm hne
      simp only [bucketGet, List.find?_cons]
      rw [decide_eq_false hb']
    · unfold bucketAppend
      rw [if_neg hb]
      by_cases hb2 : b.1 = h'
      · simp [bucketGet, List.find?_cons, hb2]
      · simp only [bucketGet, List.find?_cons]
        rw [decide_eq_false hb2]
        exact ih

/-- A metrics record already in a bucket survives the rest of the
mapping fold. -/
theorem bucket_fold_persist (f : String × String → MinerMetrics) :
    ∀ (mapping : List (String × String)) (bs : List (String × List MinerMetrics))
      (h : String) (ms : List MinerMetrics) (x : MinerMetrics),
      bucketGet bs h = some ms → x ∈ ms →
      ∃ ms', bucketGet (mapping.foldl
          (fun b wh => bucketAppend b wh.2 (f wh)) bs) h = some ms' ∧ x ∈ ms' := by
  intro mapping
  induction mapping with
  | nil => intro bs h ms x hget hx; exact ⟨ms, hget, hx⟩
  | cons wh rest ih =>
    intro bs h ms x hget hx
    simp only [List.foldl_cons]
    by_cases hh : wh.2 = h
    · refine ih (bucketAppend bs wh.2 (f wh)) h
        ((bucketGet bs h).getD [] ++ [f wh]) x ?_ ?_
      · rw [← hh, bucketGet_append_same, hh]
      · rw [hget]
        exact List.mem_append.2 (Or.inl hx)
    · exact ih _ h ms x
        (by rw [bucketGet_append_other _ _ _ _ (fun hc => hh hc.symm)]; exact hget) hx

/-- Every pair of the mapping contributes its metrics record to its
hotkey's bucket in the mapping fold. -/
theorem bucket_fold_mem (f : String × String → MinerMetrics) :
    ∀ (mapping : List (String × String)) (bs : List (String × List MinerMetrics))
      (w h : String), (w, h) ∈ mapping →
      ∃ ms, bucketGet (mapping.foldl
          (fun b wh => bucketAppend b wh.2 (f wh)) bs) h = some ms ∧ f (w, h) ∈ ms := by
  intro mapping
  induction mapping with
  | nil => intro bs w h hmem; exact absurd hmem (List.not_mem_nil _)
  | cons wh rest ih =>
    intro bs w h hmem
    rcases List.mem_cons.1 hmem with heq | hmem'
    · subst heq
      simp only [List.foldl_cons]
      exact bucket_fold_persist f rest (bucketAppend bs h (f (w, h))) h
        ((bucketGet bs h).getD [] ++ [f (w, h)]) (f (w, h))
        (bucketGet_append_same bs h (f (w, h)))
        (List.mem_append.2 (Or.inr (List.mem_singleton_self _)))
    · simp only [List.foldl_cons]
      exact ih _ w h hmem'

/-- The default metrics record always contributes zero effective work. -/
theorem default_term_zero (fexp : ℚ → ℚ) (c : RatingCalculator) (w : Option String) :
    effective_work_term fexp c (MinerMetrics.default_instance w) = some 0 := by
  unfold effective_work_term penalty_exponential MinerMetrics.default_instance
  split
  case _ hlt =>
    unfold pydiv
    rw [if_neg (ne_of_lt hlt)]
    simp
  case _ => simp

/-- A zero start timestamp spans the whole window once the clock has
passed one window length: the fraction is `1`. -/
theorem uptime_zero_start (c : RatingCalculator) (now : ℚ)
    (hW : 0 < c.window_seconds) (hnow : c.window_seconds ≤ now) :
    compute_fractional_uptime c now 0 = some 1 := by
  unfold compute_fractional_uptime pydiv
  rw [if_neg (by linarith)]
  by_cases hmid : (0 : ℚ) < now - c.window_seconds
  · rw [if_pos hmid]
  · rw [if_neg hmid, if_neg (ne_of_gt hW)]
    have hnw : now = c.window_seconds := by linarith
    rw [sub_zero, hnw, div_self (ne_of_gt hW)]

/-- C9: a worker present in the active mapping but absent from the
telemetry snapshot is bucketed with `MinerMetrics.default_instance`,
whose `uptime` field is `0.0` and whose share counters are zero;
because the rating engine reads that field as a unix start timestamp,
its uptime fraction evaluates to `1` (full uptime, not `0`), while its
effective work contribution is `0`. -/
theorem missing_worker_full_uptime (wallet : String)
    (metrics : List (MinerKey × MinerMetrics)) (mapping : List (String × String))
    (worker hotkey : String) (c : RatingCalculator) (now : ℚ)
    (hmem : (worker, hotkey) ∈ mapping)
    (hmiss : dictGet metrics ⟨wallet, worker⟩ = none)
    (hW : 0 < c.window_seconds) (hnow : c.window_seconds ≤ now) :
    ∃ ms, bucketGet (get_hotkey_metrics_map wallet metrics mapping) hotkey = some ms ∧
      MinerMetrics.default_instance (some worker) ∈ ms ∧
      (MinerMetrics.default_instance (some worker)).uptime = 0 ∧
      (MinerMetrics.default_instance (some worker)).valid_shares = 0 ∧
      (MinerMetrics.default_instance (some worker)).invalid_shares = 0 ∧
      compute_fractional_uptime c now
        (MinerMetrics.default_instance (some worker)).uptime = some 1 ∧
      ∀ fexp, effective_work_term fexp c (MinerMetrics.default_instance (some worker)) =
        some 0 := by
  obtain ⟨ms, hget, hmem'⟩ := bucket_fold_mem
    (fun wh => (dictGet metrics ⟨wallet, wh.1⟩).getD
      (MinerMetrics.default_instance (some wh.1)))
    mapping [] worker hotkey hmem
  refine ⟨ms, hget, ?_, rfl, rfl, rfl,
    uptime_zero_start c now hW hnow, fun fexp => default_term_zero fexp c (some worker)⟩
  rw [hmiss] at hmem'
  simpa using hmem'

/-- Witness for C9: a one-entry mapping, empty telemetry, a one-hour
window queried one hour in. -/
theorem missing_worker_full_uptime_witness :
    ("w", "h") ∈ [("w", "h")] ∧
    dictGet [] ⟨"pw", "w"⟩ = none ∧
    (0 : ℚ) < (⟨2, 3600, 8, 16384, 1/2⟩ : RatingCalculator).window_seconds ∧
    (⟨2, 3600, 8, 16384, 1/2⟩ : RatingCalculator).window_seconds ≤ (7200 : ℚ) ∧
    ∃ ms, bucketGet (get_hotkey_metrics_map "pw" [] [("w", "h")]) "h" = some ms ∧
      MinerMetrics.default_instance (some "w") ∈ ms ∧
      (MinerMetrics.default_instance (some "w")).uptime = 0 ∧
      (MinerMetrics.default_instance (some "w")).valid_shares = 0 ∧
      (MinerMetrics.default_instance (some "w")).invalid_shares = 0 ∧
      compute_fractional_uptime ⟨2, 3600, 8, 16384, 1/2⟩ 7200
        (MinerMetrics.default_instance (some "w")).uptime = some 1 ∧
      ∀ fexp, effective_work_term fexp ⟨2, 3600, 8, 16384, 1/2⟩
        (MinerMetrics.default_instance (some "w")) = some 0 :=
  ⟨List.mem_singleton_self _, rfl, by norm_num, by norm_num,
    missing_worker_full_uptime "pw" [] [("w", "h")] "w" "h" ⟨2, 3600, 8, 16384, 1/2⟩
      7200 (List.mem_singleton_self _) rfl (by norm_num) (by norm_num)⟩

/-! ### C8 — rate_all is total and zero-max-safe -/

/-- Running `mapM` over `Option` succeeds when every element succeeds. -/
theorem mapM_option_all_some {α β : Type} (f : α → Option β) :
    ∀ l : List α, (∀ a ∈ l, ∃ b, f a = some b) → ∃ out, l.mapM f = some out := by
  intro l
  induction l with
  | nil => intro _; exact ⟨[], by rw [List.mapM_nil]; rfl⟩
  | cons a rest ih =>
    intro h
    obtain ⟨b, hb⟩ := h a (List.mem_cons_self a rest)
    obtain ⟨out, hout⟩ := ih (fun x hx => h x (List.mem_cons_of_mem a hx))
    exact ⟨b :: out, by rw [List.mapM_cons, hb, hout]; rfl⟩

/-- A successful `mapM` over `Option` preserves length. -/
theorem mapM_option_length {α β : Type} (f : α → Option β) :
    ∀ (l : List α) (out : List β), l.mapM f = some out → out.length = l.length := by
  intro l
  induction l with
  | nil =>
    intro out h
    rw [List.mapM_nil] at h
    rw [← Option.some_inj.1 h]
    rfl
  | cons a rest ih =>
    intro out h
    rw [List.mapM_cons] at h
    rcases Option.bind_eq_some.1 h with ⟨b, _, h2⟩
    rcases Option.bind_eq_some.1 h2 with ⟨out', hout', h3⟩
    rw [← Option.some_inj.1 h3]
    simp [ih out' hout']

/-- Every element of a successful `mapM` output comes from some input
element. -/
theorem mapM_option_mem {α β : Type} (f : α → Option β) :
    ∀ (l : List α) (out : List β), l.mapM f = some out →
      ∀ p ∈ out, ∃ a ∈ l, f a = some p := by
  intro l
  induction l with
  | nil =>
    intro out h p hp
    rw [List.mapM_nil] at h
    rw [← Option.some_inj.1 h] at hp
    exact absurd hp (List.not_mem_nil p)
  | cons a rest ih =>
    intro out h p hp
    rw [List.mapM_cons] at h
    rcases Option.bind_eq_some.1 h with ⟨b, hb, h2⟩
    rcases Option.bind_eq_some.1 h2 with ⟨out', hout', h3⟩
    rw [← Option.some_inj.1 h3] at hp
    rcases List.mem_cons.1 hp with rfl | hp'
    · exact ⟨a, List.mem_cons_self a rest, hb⟩
    · obtain ⟨x, hx, hfx⟩ := ih out' hout' p hp'
      exact ⟨x, List.mem_cons_of_mem a hx, hfx⟩

/-- The uptime fraction never raises when the window is nonzero. -/
theorem cFU_isSome (c : RatingCalculator) (hW : c.window_seconds ≠ 0) (now s : ℚ) :
    ∃ v, compute_fractional_uptime c now s = some v := by
  unfold compute_fractional_uptime pydiv
  by_cases h1 : now < s
  · rw [if_pos h1]
    exact ⟨0, rfl⟩
  · rw [if_neg h1]
    by_cases h2 : s < now - c.window_seconds
    · rw [if_pos h2]
      exact ⟨1, rfl⟩
    · rw [if_neg h2, if_neg hW]
      exact ⟨_, rfl⟩

/-- The average uptime never raises when the window is nonzero. -/
theorem avg_uptime_isSome (c : RatingCalculator) (hW : c.window_seconds ≠ 0)
    (now : ℚ) (ms : List MinerMetrics) :
    ∃ v, compute_avg_uptime c now ms = some v := by
  unfold compute_avg_uptime
  by_cases hnil : ms = []
  · rw [if_pos hnil]
    exact ⟨0, rfl⟩
  · rw [if_neg hnil]
    obtain ⟨us, hus⟩ := mapM_option_all_some _ ms (fun m _ => cFU_isSome c hW now m.uptime)
    rw [hus]
    simp only [Option.bind_eq_bind, Option.some_bind]
    have hlen : (((us.map (fun u => max 0 (min 1 u))).length : ℕ) : ℚ) ≠ 0 := by
      rw [List.length_map, mapM_option_length _ ms us hus]
      exact_mod_cast Nat.pos_iff_ne_zero.1 (List.length_pos.2 hnil)
    unfold pydiv
    rw [if_neg hlen]
    exact ⟨_, rfl⟩

/-- The share quality never raises. -/
theorem share_quality_isSome (ms : List MinerMetrics) :
    ∃ v, compute_share_quality ms = some v := by
  simp only [compute_share_quality]
  split
  case _ => exact ⟨1, rfl⟩
  case _ h =>
    unfold pydiv
    rw [if_neg (by exact_mod_cast h)]
    exact ⟨_, rfl⟩

/-- One effective-work term never raises when `max_difficulty` is
nonzero. -/
theorem ewt_isSome (fexp : ℚ → ℚ) (c : RatingCalculator)
    (hmd : c.max_difficulty ≠ 0) (m : MinerMetrics) :
    ∃ v, effective_work_term fexp c m = some v := by
  unfold effective_work_term penalty_exponential
  by_cases hd : c.max_difficulty < m.difficulty
  · rw [if_pos hd]
    unfold pydiv
    rw [if_neg hmd]
    exact ⟨_, rfl⟩
  · rw [if_neg hd]
    exact ⟨_, rfl⟩

/-- The effective work of a worker list never raises when
`max_difficulty` is nonzero. -/
theorem cew_isSome (fexp : ℚ → ℚ) (c : RatingCalculator)
    (hmd : c.max_difficulty ≠ 0) (ms : List MinerMetrics) :
    ∃ v, compute_effective_work fexp c ms = some v := by
  unfold compute_effective_work
  obtain ⟨out, hout⟩ := mapM_option_all_some _ ms (fun m _ => ewt_isSome fexp c hmd m)
  rw [hout]
  exact ⟨_, rfl⟩

/-- The per-hotkey work table never raises when `max_difficulty` is
nonzero. -/
theorem rateWork_isSome (fexp : ℚ → ℚ) (c : RatingCalculator)
    (hmd : c.max_difficulty ≠ 0) (metrics : List (String × List MinerMetrics)) :
    ∃ w, rateWork fexp c metrics = some w := by
  unfold rateWork
  apply mapM_option_all_some
  intro p _
  obtain ⟨v, hv⟩ := cew_isSome fexp c hmd p.2
  exact ⟨(p.1, v), by rw [hv]; rfl⟩

/-- Rounding zero to any number of digits gives zero. -/
theorem pyround_zero (nd : ℕ) : pyround nd 0 = 0 := by
  unfold pyround pyround0
  rw [zero_mul]
  norm_num [round_eq]

/-- The per-hotkey body of `rate_all` never raises under a sane
configuration. -/
theorem rate_inner_some (fpow : ℚ → ℚ → ℚ) (c : RatingCalculator) (now : ℚ)
    (work : List (String × ℚ)) (hW : c.window_seconds ≠ 0)
    (halpha : 0 ≤ c.uptime_alpha) (a : String × List MinerMetrics) :
    ∃ y, (do
        let norm_score ← if pymaxD (work.map (·.2)) 1 = 0 then some 0
          else pydiv ((work.lookup a.1).getD 0) (pymaxD (work.map (·.2)) 1)
        let avg_uptime ← compute_avg_uptime c now a.2
        let share_quality ← compute_share_quality a.2
        let up ← pypow fpow avg_uptime c.uptime_alpha
        let penalized_by_uptime := norm_score * up
        let invalid_shares_multiplier :=
          1 - (1 - share_quality) * c.invalid_shares_penalty_factor
        let final_score := penalized_by_uptime * invalid_shares_multiplier
        pure (a.1, pyround c.ndigits (max 0 (min 1 final_score)))) =
      some y := by
  obtain ⟨avg, havg⟩ := avg_uptime_isSome c hW now a.2
  obtain ⟨q, hq⟩ := share_quality_isSome a.2
  obtain ⟨up, hup⟩ : ∃ v, pypow fpow avg c.uptime_alpha = some v := by
    unfold pypow
    rw [if_neg (fun hc => absurd halpha (not_le.2 hc.2))]
    exact ⟨_, rfl⟩
  by_cases hmaxz : pymaxD (work.map (·.2)) 1 = 0
  · rw [if_pos hmaxz]
    refine ⟨(a.1, pyround c.ndigits (max 0 (min 1 ((0 : ℚ) * up *
      (1 - (1 - q) * c.invalid_shares_penalty_factor))))), ?_⟩
    simp only [Option.bind_eq_bind, Option.some_bind, havg, hq, hup]
    rfl
  · rw [if_neg hmaxz]
    have hdiv : pydiv ((work.lookup a.1).getD 0) (pymaxD (work.map (·.2)) 1) =
        some (((work.lookup a.1).getD 0) / pymaxD (work.map (·.2)) 1) := by
      unfold pydiv
      rw [if_neg hmaxz]
    rw [hdiv]
    refine ⟨(a.1, pyround c.ndigits (max 0 (min 1
      ((((work.lookup a.1).getD 0) / pymaxD (work.map (·.2)) 1) * up *
        (1 - (1 - q) * c.invalid_shares_penalty_factor))))), ?_⟩
    simp only [Option.bind_eq_bind, Option.some_bind, havg, hq, hup]
    rfl

/-- When the batch maximum work is zero, the per-hotkey body of
`rate_all` yields a zero score. -/
theorem rate_inner_zero (fpow : ℚ → ℚ → ℚ) (c : RatingCalculator) (now : ℚ)
    (work : List (String × ℚ)) (hmax : pymaxD (work.map (·.2)) 1 = 0)
    (a : String × List MinerMetrics) (y : String × ℚ)
    (hy : (do
        let norm_score ← if pymaxD (work.map (·.2)) 1 = 0 then some 0
          else pydiv ((work.lookup a.1).getD 0) (pymaxD (work.map (·.2)) 1)
        let avg_uptime ← compute_avg_uptime c now a.2
        let share_quality ← compute_share_quality a.2
        let up ← pypow fpow avg_uptime c.uptime_alpha
        let penalized_by_uptime := norm_score * up
        let invalid_shares_multiplier :=
          1 - (1 - share_quality) * c.invalid_shares_penalty_factor
        let final_score := penalized_by_uptime * invalid_shares_multiplier
        pure (a.1, pyround c.ndigits (max 0 (min 1 final_score)))) =
      some y) :
    y.2 = 0 := by
  rw [if_pos hmax] at hy
  simp only [Option.bind_eq_bind, Option.some_bind] at hy
  rcases Option.bind_eq_some.1 hy with ⟨avg, _, hy2⟩
  rcases Option.bind_eq_some.1 hy2 with ⟨q, _, hy3⟩
  rcases Option.bind_eq_some.1 hy3 with ⟨up, _, hy4⟩
  rw [← Option.some_inj.1 hy4]
  norm_num [pyround_zero, min_def, max_def]

/-- C8: `rate_all` is total — it returns a score map for every input
metrics map (empty maps, empty worker lists and all-zero work included)
as long as the calculator configuration is sane (nonzero window,
nonzero difficulty ceiling, nonnegative uptime exponent) — and when the
maximum raw work over the batch is `0`, every hotkey's final score is
`0`. -/
theorem rate_all_total (fexp : ℚ → ℚ) (fpow : ℚ → ℚ → ℚ) (c : RatingCalculator)
    (now : ℚ) (metrics : List (String × List MinerMetrics))
    (hW : c.window_seconds ≠ 0) (hmd : c.max_difficulty ≠ 0)
    (halpha : 0 ≤ c.uptime_alpha) :
    ∃ scores, rate_all fexp fpow c now metrics = some scores ∧
      ∀ work, rateWork fexp c metrics = some work →
        pymaxD (work.map (·.2)) 1 = 0 → ∀ p ∈ scores, p.2 = 0 := by
  obtain ⟨work, hwork⟩ := rateWork_isSome fexp c hmd metrics
  have hmain : ∃ scores, rate_all fexp fpow c now metrics = some scores := by
    unfold rate_all
    rw [hwork]
    simp only [Option.bind_eq_bind, Option.some_bind]
    apply mapM_option_all_some
    intro p _
    exact rate_inner_some fpow c now work hW halpha p
  obtain ⟨scores, hscores⟩ := hmain
  refine ⟨scores, hscores, ?_⟩
  intro work' hwork' hmax p hp
  rw [hwork] at hwork'
  rw [← Option.some_inj.1 hwork'] at hmax
  unfold rate_all at hscores
  rw [hwork] at hscores
  simp only [Option.bind_eq_bind, Option.some_bind] at hscores
  obtain ⟨a, _, hfa⟩ := mapM_option_mem _ metrics scores hscores p hp
  exact rate_inner_zero fpow c now work hmax a p hfa

/-- Witness for C8: the constant-1 stand-ins for `exp` and `**`, the
default calculator configuration, and a single hotkey with no
workers. -/
theorem rate_all_total_witness :
    ((⟨2, 3600, 8, 16384, 1/2⟩ : RatingCalculator).window_seconds ≠ 0) ∧
    ((⟨2, 3600, 8, 16384, 1/2⟩ : RatingCalculator).max_difficulty ≠ 0) ∧
    (0 ≤ (⟨2, 3600, 8, 16384, 1/2⟩ : RatingCalculator).uptime_alpha) ∧
    ∃ scores, rate_all (fun _ => 1) (fun _ _ => 1) ⟨2, 3600, 8, 16384, 1/2⟩ 7200
        [("h", [])] = some scores ∧
      ∀ work, rateWork (fun _ => 1) ⟨2, 3600, 8, 16384, 1/2⟩ [("h", [])] = some work →
        pymaxD (work.map (·.2)) 1 = 0 → ∀ p ∈ scores, p.2 = 0 :=
  ⟨by norm_num, by norm_num, by norm_num,
    rate_all_total (fun _ => 1) (fun _ _ => 1) ⟨2, 3600, 8, 16384, 1/2⟩ 7200
      [("h", [])] (by norm_num) (by norm_num) (by norm_num)⟩
